import Mathlib

/-!
Verification of the `traject` path-template compiler/matcher (`src/lib.rs`).

The Rust source compiles a template string such as `foo{bar}baz` into a `Step`
value holding the raw text, the generalized text (placeholders replaced by the
two-character marker `{}`), the literal parts, the placeholder names, and a
compiled regex built by substituting `(?P<name>.+)` for each placeholder.

Everything here is a shallow embedding on `List Char`:

* The fixed helper regex `\{([^}]*)\}` (placeholder spans) is modelled by a
  direct left-to-right scanner (`scanAux`) with exactly the leftmost-match
  semantics of `Regex::find_iter` / `Regex::replace_all` for that pattern:
  a match starts at each `{` encountered outside a span and extends to the
  first following `}` (the body may contain further `{`, since the body class
  is `[^}]`); a `{` with no later `}` is not part of any match.
* The fixed helper regex `^[^\d\W]\w*$` (identifier check) is modelled
  directly over ASCII word characters (`isWordChar`).
* `Regex::new` / `Regex::captures` on the dynamically built pattern are
  modelled by a small regex AST (`RE`), a lexer/stack parser for the pattern
  fragment the crate is actually fed by this code (plain characters, `.`,
  `+`, `(`…`)` groups and `(?P<name>…)` named groups), and a backtracking
  matcher with the crate's leftmost-first, greedy semantics (`.` does not
  match a newline; every capture group participates in a match in this
  alternation-free fragment).  Constructs never produced by templates whose
  literal parts are metacharacter-free (classes, repetitions other than `+`,
  alternation, escapes, flags) are conservatively rejected by the parser
  model; all general theorems below restrict literal parts to
  metacharacter-free text (`safeChar`), where the model and the crate agree,
  and all concrete inputs used in theorems stay inside the fragment.
* `Regex::new(..).unwrap()` inside `get_variables_re` panics when the built
  pattern is not a valid regex; construction results are therefore modelled
  by `NewResult` with a distinguished `panic` outcome.
-/

/-- Tokens of the template decomposition induced by the helper regex
`\{([^}]*)\}`: a character outside every placeholder span, or a matched span
`{body}` carrying its body. -/
inductive Tok where
  | lit (c : Char)
  | ph (body : List Char)
deriving DecidableEq, Repr

/-- Leftmost-match scanner for `\{([^}]*)\}`, written as a state machine.
`mode = none`: outside a span; `mode = some acc`: inside a span opened by `{`,
having read the body characters `acc` (none of which is `}`).  If the input
ends while inside a span, the opening `{` and the accumulated body characters
were not part of any match (there is no `}` to their right), so they are
emitted as literal characters. -/
def scanAux : Option (List Char) → List Char → List Tok
  | none, [] => []
  | none, '\x7b' :: rest => scanAux (some []) rest
  | none, c :: rest => .lit c :: scanAux none rest
  | some acc, [] => .lit '\x7b' :: acc.map .lit
  | some acc, '\x7d' :: rest => .ph acc :: scanAux none rest
  | some acc, c :: rest => scanAux (some (acc ++ [c])) rest

/-- Decomposition of a template string into literal characters and
placeholder spans. -/
def scan (s : List Char) : List Tok := scanAux none s

/-- Text of one token: a span `{body}` contributes `{` ++ body ++ `}`. -/
def tokText : Tok → List Char
  | .lit c => [c]
  | .ph b => '\x7b' :: b ++ ['\x7d']

/-- Concatenation of a token list back into text. -/
def flattenToks (ts : List Tok) : List Char := ts.flatMap tokText

/-- Generalized text of one token: a span is replaced by the marker `{}`. -/
def tokGen : Tok → List Char
  | .lit c => [c]
  | .ph _ => ['\x7b', '\x7d']

/-- Replacement of every placeholder span by the marker `{}`; this is
`PATH_VARIABLE.replace_all(s, "{}")` from `Step::new`. -/
def generalize (s : List Char) : List Char := (scan s).flatMap tokGen

/-- Body of a placeholder token. -/
def tokBody : Tok → Option (List Char)
  | .ph b => some b
  | .lit _ => none

/-- Bodies of the placeholder spans in order of appearance; this is the
`find_iter`/slice part of `get_names`. -/
def phBodies (ts : List Tok) : List (List Char) := ts.filterMap tokBody

/-- Splitting on the separator `{}`, as `str::split("{}")`: leftmost
non-overlapping occurrences of the two-character separator. -/
def splitMarker : List Char → List (List Char)
  | [] => [[]]
  | '\x7b' :: '\x7d' :: rest => [] :: splitMarker rest
  | c :: rest =>
    match splitMarker rest with
    | [] => [[c]]
    | p :: ps => (c :: p) :: ps

/-- ASCII word character, modelling `\w` on the inputs in scope. -/
def isWordChar (c : Char) : Bool :=
  c.isAlpha || c.isDigit || c = '_'

/-- Model of `is_identifier`, i.e. of the anchored helper regex
`^[^\d\W]\w*$`: one initial word character that is not a digit, followed by
word characters. -/
def is_identifier (s : List Char) : Bool :=
  match s with
  | [] => false
  | c :: rest => (isWordChar c && !c.isDigit) && rest.all isWordChar

/-- Duplicate check of `get_names`: the `HashSet::insert` loop fails exactly
when some name equals another one of the list. -/
def nodupB : List (List Char) → Bool
  | [] => true
  | n :: rest => !decide (n ∈ rest) && nodupB rest

/-- Model of `get_parts`: split the generalized text on `{}`, reject an empty
interior part (consecutive variables), then reject any part still containing
a brace. `none` models `Err(Error {})`. -/
def get_parts (generalized : List Char) : Option (List (List Char)) :=
  let parts := splitMarker generalized
  if 1 < parts.length && ((parts.drop 1).dropLast.any fun p => p.isEmpty) then
    none
  else if parts.any fun p => p.contains '\x7b' || p.contains '\x7d' then
    none
  else
    some parts

/-- Model of `get_names`: the span bodies of the raw text, each required to be
an identifier and distinct from the earlier ones. -/
def get_names (s : List Char) : Option (List (List Char)) :=
  let names := phBodies (scan s)
  if (names.all fun n => is_identifier n) && nodupB names then some names
  else none

/-- Regex AST for the pattern fragment reaching `Regex::new` in this code. -/
inductive RE where
  | eps
  | char (c : Char)
  | dot
  | cat (a b : RE)
  | group (a : RE)
  | plus (a : RE)
deriving DecidableEq, Repr

/-- Pattern tokens produced by the pattern lexer. -/
inductive PTok where
  | ch (c : Char)
  | dotTok
  | plusTok
  | openGroup
  | openNamed (name : List Char)
  | closeGroup
deriving DecidableEq, Repr

/-- Characters with a meaning in the crate's pattern syntax.  Text made of
other characters is matched literally by the compiled pattern. -/
def metaChar (c : Char) : Bool :=
  c ∈ ['(', ')', '.', '+', '|', '*', '?', '[', ']', '\x7b', '\x7d', '\\', '^', '$']

/-- Character without a meaning in the pattern syntax. -/
def safeChar (c : Char) : Bool := !metaChar c

/-- Group-name validity, modelling the crate's capture-name check on the
word-character names this code can produce. -/
def validGroupName (n : List Char) : Bool := is_identifier n

/-- Lexer for the pattern fragment.  `mode = some acc` is inside the name of
a `(?P<…>` group.  `none` models a `Regex::new` parse error: unterminated
names, bad group names, and the pattern constructs outside the modelled
fragment are rejected. -/
def lexPat : Option (List Char) → List Char → Option (List PTok)
  | none, [] => some []
  | none, '(' :: '?' :: 'P' :: '<' :: rest => lexPat (some []) rest
  | none, '(' :: '?' :: _ => none
  | none, '(' :: rest => (lexPat none rest).map (.openGroup :: ·)
  | none, ')' :: rest => (lexPat none rest).map (.closeGroup :: ·)
  | none, '.' :: rest => (lexPat none rest).map (.dotTok :: ·)
  | none, '+' :: rest => (lexPat none rest).map (.plusTok :: ·)
  | none, c :: rest =>
    if metaChar c then none else (lexPat none rest).map (.ch c :: ·)
  | some acc, '>' :: rest =>
    if validGroupName acc then (lexPat none rest).map (.openNamed acc :: ·)
    else none
  | some acc, c :: rest => lexPat (some (acc ++ [c])) rest
  | some _, [] => none

/-- Right-nested sequencing of a list of regexes. -/
def seqOf (l : List RE) : RE := l.foldr .cat .eps

/-- Nullability: whether a regex can match the empty string. -/
def nullable : RE → Bool
  | .eps => true
  | .char _ => false
  | .dot => false
  | .cat a b => nullable a && nullable b
  | .group a => nullable a
  | .plus a => nullable a

/-- Stack parser from pattern tokens to the AST.  Each stack frame holds the
regexes of one group body in reverse order; `(` and `(?P<…>` push a frame,
`)` pops one into a capturing group (both plain and named groups capture, in
order of their opening parenthesis), `+` wraps the preceding element.
`none` models a `Regex::new` parse error: a stray `)`, an unclosed group, or
a dangling `+`.  A `+` over a nullable element is also rejected (the matcher
model requires each repetition step to consume input; patterns generated from
metacharacter-free literal parts only ever apply `+` to `.`). -/
def parseSt : List (List RE) → List PTok → Option RE
  | stack, [] =>
    match stack with
    | [frame] => some (seqOf frame.reverse)
    | _ => none
  | stack, .ch c :: ts =>
    match stack with
    | frame :: rest => parseSt ((.char c :: frame) :: rest) ts
    | [] => none
  | stack, .dotTok :: ts =>
    match stack with
    | frame :: rest => parseSt ((.dot :: frame) :: rest) ts
    | [] => none
  | stack, .openGroup :: ts => parseSt ([] :: stack) ts
  | stack, .openNamed _ :: ts => parseSt ([] :: stack) ts
  | stack, .closeGroup :: ts =>
    match stack with
    | top :: parent :: rest =>
      parseSt ((.group (seqOf top.reverse) :: parent) :: rest) ts
    | _ => none
  | stack, .plusTok :: ts =>
    match stack with
    | (e :: frame) :: rest =>
      if nullable e then none else parseSt ((.plus e :: frame) :: rest) ts
    | _ => none

/-- Model of `Regex::new` on the fragment: lex, then parse.  `none` models a
compile error (which `get_variables_re` turns into a panic via `unwrap`). -/
def rustRegexNew (p : List Char) : Option RE :=
  (lexPat none p).bind (parseSt [[]])

/-- Pattern text of one token: a literal character verbatim (no escaping), a
span `{name}` as `(?P<name>.+)`. -/
def tokPatText : Tok → List Char
  | .lit c => [c]
  | .ph b => '(' :: '?' :: 'P' :: '<' :: (b ++ ('>' :: '.' :: '+' :: [')']))

/-- Pattern text built by `get_variables_re`: the raw text with each
placeholder span `{name}` replaced by `(?P<name>.+)` and every other
character kept verbatim (no escaping of literal text). -/
def variables_re_text (s : List Char) : List Char :=
  (scan s).flatMap tokPatText

/-- Model of `get_variables_re`: build the pattern text and compile it;
`none` stands for the panic in `Regex::new(&variables_re).unwrap()`. -/
def get_variables_re (s : List Char) : Option RE :=
  rustRegexNew (variables_re_text s)

/-- One backtracking step level: given a matcher `next` used for the
recursive occurrence inside `plus`, produce for a regex and an input the list
of `(remaining input, captures)` outcomes in the crate's preference order
(leftmost-first, greedy: for `plus`, continuing the repetition is preferred
over stopping).  Captures are listed in order of their group's opening
parenthesis, each holding the text the group consumed.  As in the crate, `.`
does not match a newline. -/
def matchGo (next : RE → List Char → List (List Char × List (List Char))) :
    RE → List Char → List (List Char × List (List Char))
  | .eps, s => [(s, [])]
  | .char c, s =>
    match s with
    | [] => []
    | d :: s' => if d = c then [(s', [])] else []
  | .dot, s =>
    match s with
    | [] => []
    | d :: s' => if d = '\n' then [] else [(s', [])]
  | .cat a b, s =>
    (matchGo next a s).flatMap fun p =>
      (matchGo next b p.1).map fun q => (q.1, p.2 ++ q.2)
  | .group a, s =>
    (matchGo next a s).map fun p =>
      (p.1, s.take (s.length - p.1.length) :: p.2)
  | .plus a, s =>
    (matchGo next a s).flatMap fun p =>
      if p.1.length < s.length then next (.plus a) p.1 ++ [p] else [p]

/-- Fuel-indexed matcher: the fuel bounds the number of `plus` repetition
steps along any path.  Each repetition step strictly consumes input, so fuel
`n + 1` is exhaustive on inputs of length `n`; `match_segment` below always
supplies adequate fuel. -/
def matchL : Nat → RE → List Char → List (List Char × List (List Char))
  | 0 => matchGo fun _ _ => []
  | f + 1 => matchGo (matchL f)

/-- Unanchored search, as `Regex::captures`: try the match at the start of
each suffix from the left; at the first suffix with a match take the
preferred one.  Returns the capture texts. -/
def reSearch (re : RE) (f : Nat) : List Char → Option (List (List Char))
  | [] => ((matchL f re []).head?).map fun p => p.2
  | c :: rest =>
    match (matchL f re (c :: rest)).head? with
    | some p => some p.2
    | none => reSearch re f rest

/-- The compiled template value, as the Rust `Step` struct (the compiled
regex field is the AST model). -/
structure Step where
  s : List Char
  generalized : List Char
  parts : List (List Char)
  names : List (List Char)
  variables_re : RE
deriving DecidableEq, Repr

/-- Outcome of `Step::new`: `Ok`, `Err`, or a panic (the `unwrap` in
`get_variables_re`). -/
inductive NewResult where
  | ok (st : Step)
  | err
  | panic
deriving DecidableEq, Repr

/-- Whether construction returned `Ok`. -/
def NewResult.isOk : NewResult → Bool
  | .ok _ => true
  | _ => false

/-- Model of `Step::new`: generalize, validate parts, validate names, then
compile the variables regex (whose failure is a panic, not an `Err`). -/
def Step.new (s : List Char) : NewResult :=
  let generalized := generalize s
  match get_parts generalized with
  | none => .err
  | some parts =>
    match get_names s with
    | none => .err
    | some names =>
      match get_variables_re s with
      | none => .panic
      | some re => .ok ⟨s, generalized, parts, names, re⟩

/-- Model of `Step::match_segment`: search the compiled pattern in the
segment and return the captured texts.  In the alternation-free fragment
every group participates in any match, so the `expect` in the source never
fires and the captures are total. -/
def Step.match_segment (st : Step) (seg : List Char) :
    Option (List (List Char)) :=
  reSearch st.variables_re (seg.length + 1) seg

/-- Fallback value used by `stepOf`. -/
def defaultStep : Step := ⟨[], [], [], [], .eps⟩

/-- The step built from a template, defaulting on failure; used to state
closed concrete theorems. -/
def stepOf (s : List Char) : Step :=
  match Step.new s with
  | .ok st => st
  | _ => defaultStep

/-- Compile a template and, if construction returns `Ok`, match a segment:
`none` means construction did not return `Ok`; `some r` gives the match
result. -/
def newThenMatch (t seg : List Char) : Option (Option (List (List Char))) :=
  match Step.new t with
  | .ok st => some (st.match_segment seg)
  | _ => none

/-- Prepend a character to the first chunk of a split result. -/
def consHead (c : Char) : List (List Char) → List (List Char)
  | [] => [[c]]
  | p :: ps => (c :: p) :: ps

/-- Literal parts determined directly by the token decomposition: the text
between consecutive placeholder spans (and before the first and after the
last one). -/
def partsOfToks : List Tok → List (List Char)
  | [] => [[]]
  | .ph _ :: ts => [] :: partsOfToks ts
  | .lit c :: ts => consHead c (partsOfToks ts)

/-- Re-assembly of literal parts interleaved with `{name}` spans, in order:
`part₀ {name₀} part₁ … {nameₖ₋₁} partₖ`. -/
def reassemble : List (List Char) → List (List Char) → List Char
  | p :: ps, n :: ns => p ++ ('\x7b' :: n ++ ['\x7d']) ++ reassemble ps ns
  | p :: _, [] => p
  | [], _ => []

/-- The AST the pattern parser yields for one token of a template whose
literal parts are metacharacter-free: a literal character, or a capturing
group around `.+`. -/
def tokRE : Tok → RE
  | .lit c => .char c
  | .ph _ => .group (seqOf [.plus .dot])

/-- Pattern tokens the lexer yields for one template token (in the
metacharacter-free case). -/
def tokPToks : Tok → List PTok
  | .lit c => [.ch c]
  | .ph b => [.openNamed b, .dotTok, .plusTok, .closeGroup]

/-- Text consumed by a match of the token list when the placeholder spans
capture the given texts: literal characters interleaved, in order, with one
capture per span. -/
def weaveToks : List Tok → List (List Char) → List Char
  | [], _ => []
  | .lit c :: ts, caps => c :: weaveToks ts caps
  | .ph _ :: _, [] => []
  | .ph _ :: ts, cap :: caps => cap ++ weaveToks ts caps

/-- Literal parts interleaved, in order, with one captured text per
placeholder: `part₀ cap₀ part₁ … capₖ₋₁ partₖ`. -/
def weaveParts : List (List Char) → List (List Char) → List Char
  | p :: ps, cap :: caps => p ++ cap ++ weaveParts ps caps
  | p :: _, [] => p
  | [], _ => []

theorem scanAux_none_cons (c : Char) (rest : List Char) (h : c ≠ '\x7b') :
    scanAux none (c :: rest) = .lit c :: scanAux none rest := by
  rw [scanAux.eq_def]
  split
  · simp_all
  · rename_i heq; injection heq; simp_all
  · rename_i heq; injection heq with h1 h2; subst h1 h2; rfl
  · simp_all
  · simp_all
  · simp_all

theorem scanAux_some_cons (acc : List Char) (c : Char) (rest : List Char)
    (h : c ≠ '\x7d') :
    scanAux (some acc) (c :: rest) = scanAux (some (acc ++ [c])) rest := by
  rw [scanAux.eq_def]
  split <;> simp_all

theorem splitMarker_cons (c : Char) (rest : List Char)
    (h : c ≠ '\x7b' ∨ rest.head? ≠ some '\x7d') :
    splitMarker (c :: rest) = consHead c (splitMarker rest) := by
  rw [splitMarker.eq_def]
  split
  · simp_all
  · rename_i heq; injection heq with h1 h2; subst h1; simp_all
  · rename_i heq; injection heq with h1 h2; subst h1 h2
    cases hs : splitMarker rest <;> simp [consHead, hs]

theorem consHead_ne_nil (c : Char) (l : List (List Char)) : consHead c l ≠ [] := by
  cases l <;> simp [consHead]

theorem consHead_length (c : Char) (l : List (List Char)) (h : l ≠ []) :
    (consHead c l).length = l.length := by
  cases l with
  | nil => exact absurd rfl h
  | cons p ps => simp [consHead]

theorem partsOfToks_ne_nil (ts : List Tok) : partsOfToks ts ≠ [] := by
  match ts with
  | [] => simp [partsOfToks]
  | .ph b :: ts => simp [partsOfToks]
  | .lit c :: ts => exact consHead_ne_nil _ _

theorem phBodies_nil : phBodies [] = [] := rfl

theorem phBodies_cons_lit (c : Char) (ts : List Tok) :
    phBodies (.lit c :: ts) = phBodies ts := by
  simp [phBodies, tokBody]

theorem phBodies_cons_ph (b : List Char) (ts : List Tok) :
    phBodies (.ph b :: ts) = b :: phBodies ts := by
  simp [phBodies, tokBody]

theorem partsOfToks_length (ts : List Tok) :
    (partsOfToks ts).length = (phBodies ts).length + 1 := by
  induction ts with
  | nil => rfl
  | cons t ts ih =>
    match t with
    | .ph b => simp [partsOfToks, phBodies_cons_ph, ih]
    | .lit c =>
      rw [show partsOfToks (.lit c :: ts) = consHead c (partsOfToks ts) from rfl,
        consHead_length c _ (partsOfToks_ne_nil ts), phBodies_cons_lit, ih]

theorem flattenToks_cons (t : Tok) (ts : List Tok) :
    flattenToks (t :: ts) = tokText t ++ flattenToks ts := by
  simp [flattenToks]

theorem flattenToks_map_lit (l : List Char) :
    flattenToks (l.map .lit) = l := by
  induction l with
  | nil => rfl
  | cons c rest ih => simp [flattenToks_cons, tokText, ih]

theorem genToks_map_lit (l : List Char) :
    (l.map Tok.lit).flatMap tokGen = l := by
  induction l with
  | nil => rfl
  | cons c rest ih => simp_all [tokGen]

theorem partsOfToks_map_lit (l : List Char) :
    partsOfToks (l.map .lit) = [l] := by
  induction l with
  | nil => rfl
  | cons c rest ih =>
    rw [List.map_cons, show partsOfToks (.lit c :: rest.map .lit)
      = consHead c (partsOfToks (rest.map .lit)) from rfl, ih]
    rfl

theorem splitMarker_no_close (l : List Char) (h : '\x7d' ∉ l) :
    splitMarker l = [l] := by
  induction l with
  | nil => rfl
  | cons c rest ih =>
    have hr : '\x7d' ∉ rest := fun hm => h (List.mem_cons_of_mem _ hm)
    rw [splitMarker_cons c rest ?_, ih hr]
    · rfl
    · right
      intro hh
      exact hr (by cases rest <;> simp_all)

theorem flattenToks_scanAux (l : List Char) :
    flattenToks (scanAux none l) = l ∧
      ∀ acc, flattenToks (scanAux (some acc) l) = '\x7b' :: (acc ++ l) := by
  induction l with
  | nil =>
    refine ⟨rfl, fun acc => ?_⟩
    rw [show scanAux (some acc) [] = .lit '\x7b' :: acc.map .lit from rfl,
      flattenToks_cons, flattenToks_map_lit]
    simp [tokText]
  | cons c rest ih =>
    refine ⟨?_, fun acc => ?_⟩
    · by_cases hc : c = '\x7b'
      · subst hc
        rw [show scanAux none ('\x7b' :: rest) = scanAux (some []) rest from rfl,
          ih.2 []]
        rfl
      · rw [scanAux_none_cons c rest hc, flattenToks_cons, ih.1]
        rfl
    · by_cases hc : c = '\x7d'
      · subst hc
        rw [show scanAux (some acc) ('\x7d' :: rest) = .ph acc :: scanAux none rest
            from rfl, flattenToks_cons, ih.1]
        simp [tokText]
      · rw [scanAux_some_cons acc c rest hc, ih.2 (acc ++ [c])]
        simp

theorem flatten_scan (l : List Char) : flattenToks (scan l) = l :=
  (flattenToks_scanAux l).1

theorem splitMarker_genAux (l : List Char) :
    splitMarker ((scanAux none l).flatMap tokGen) = partsOfToks (scanAux none l) ∧
      ∀ acc, '\x7d' ∉ acc →
        splitMarker ((scanAux (some acc) l).flatMap tokGen) =
          partsOfToks (scanAux (some acc) l) := by
  induction l with
  | nil =>
    refine ⟨rfl, fun acc hacc => ?_⟩
    rw [show scanAux (some acc) [] = .lit '\x7b' :: acc.map .lit from rfl]
    rw [List.flatMap_cons, show tokGen (.lit '\x7b') = ['\x7b'] from rfl,
      genToks_map_lit]
    rw [show partsOfToks (.lit '\x7b' :: acc.map .lit)
      = consHead '\x7b' (partsOfToks (acc.map .lit)) from rfl,
      partsOfToks_map_lit]
    have hside : ('\x7b' : Char) ≠ '\x7b' ∨ acc.head? ≠ some '\x7d' := by
      right
      intro hh
      exact hacc (by cases acc <;> simp_all)
    rw [List.singleton_append, splitMarker_cons '\x7b' acc hside,
      splitMarker_no_close acc hacc]
  | cons c rest ih =>
    refine ⟨?_, fun acc hacc => ?_⟩
    · by_cases hc : c = '\x7b'
      · subst hc
        rw [show scanAux none ('\x7b' :: rest) = scanAux (some []) rest from rfl]
        exact ih.2 [] (by simp)
      · rw [scanAux_none_cons c rest hc]
        rw [List.flatMap_cons, show tokGen (.lit c) = [c] from rfl]
        rw [show partsOfToks (.lit c :: scanAux none rest)
          = consHead c (partsOfToks (scanAux none rest)) from rfl, ← ih.1]
        exact splitMarker_cons c _ (Or.inl hc)
    · by_cases hc : c = '\x7d'
      · subst hc
        rw [show scanAux (some acc) ('\x7d' :: rest) = .ph acc :: scanAux none rest
          from rfl]
        rw [List.flatMap_cons, show tokGen (.ph acc) = ['\x7b', '\x7d'] from rfl]
        rw [show ('\x7b' :: '\x7d' :: []) ++ (scanAux none rest).flatMap tokGen
          = '\x7b' :: '\x7d' :: (scanAux none rest).flatMap tokGen from rfl]
        rw [show splitMarker ('\x7b' :: '\x7d' :: (scanAux none rest).flatMap tokGen)
          = [] :: splitMarker ((scanAux none rest).flatMap tokGen) from rfl, ih.1]
        rfl
      · rw [scanAux_some_cons acc c rest hc]
        refine ih.2 (acc ++ [c]) ?_
        intro hm
        rcases List.mem_append.1 hm with h | h
        · exact hacc h
        · simp at h
          exact hc h.symm

theorem split_generalize (s : List Char) :
    splitMarker (generalize s) = partsOfToks (scan s) :=
  (splitMarker_genAux s).1

theorem reassemble_consHead (c : Char) (P N : List (List Char)) (h : P ≠ []) :
    reassemble (consHead c P) N = c :: reassemble P N := by
  match P, N with
  | [], _ => exact absurd rfl h
  | p :: ps, [] => rfl
  | p :: ps, n :: ns => simp [consHead, reassemble]

theorem reassemble_partsOfToks (ts : List Tok) :
    reassemble (partsOfToks ts) (phBodies ts) = flattenToks ts := by
  induction ts with
  | nil => rfl
  | cons t ts ih =>
    match t with
    | .ph b =>
      rw [show partsOfToks (.ph b :: ts) = [] :: partsOfToks ts from rfl,
        phBodies_cons_ph, flattenToks_cons]
      match hp : partsOfToks ts with
      | [] => exact absurd hp (partsOfToks_ne_nil ts)
      | p :: ps =>
        rw [show reassemble ([] :: p :: ps) (b :: phBodies ts)
          = [] ++ ('\x7b' :: b ++ ['\x7d']) ++ reassemble (p :: ps) (phBodies ts)
          from rfl, ← hp, ih]
        simp [tokText]
    | .lit c =>
      rw [show partsOfToks (.lit c :: ts) = consHead c (partsOfToks ts) from rfl,
        phBodies_cons_lit,
        reassemble_consHead c _ _ (partsOfToks_ne_nil ts), ih, flattenToks_cons]
      rfl

theorem nodupB_nodup (l : List (List Char)) (h : nodupB l = true) : l.Nodup := by
  induction l with
  | nil => exact List.nodup_nil
  | cons n rest ih =>
    rw [show nodupB (n :: rest) = (!decide (n ∈ rest) && nodupB rest) from rfl,
      Bool.and_eq_true] at h
    exact List.nodup_cons.2 ⟨by simpa using h.1, ih h.2⟩

theorem get_parts_some (g : List Char) (ps : List (List Char))
    (h : get_parts g = some ps) : ps = splitMarker g := by
  simp only [get_parts] at h
  split at h
  · exact absurd h (by simp)
  · split at h
    · exact absurd h (by simp)
    · exact (Option.some_inj.1 h).symm

theorem get_names_some (s : List Char) (ns : List (List Char))
    (h : get_names s = some ns) :
    ns = phBodies (scan s) ∧ (∀ n ∈ ns, is_identifier n = true) ∧ ns.Nodup := by
  simp only [get_names] at h
  split at h
  · rename_i hcond
    rw [Bool.and_eq_true, List.all_eq_true] at hcond
    cases Option.some_inj.1 h
    exact ⟨rfl, hcond.1, nodupB_nodup _ hcond.2⟩
  · exact absurd h (by simp)

theorem step_new_ok (s : List Char) (st : Step) (h : Step.new s = .ok st) :
    st.s = s ∧ st.generalized = generalize s ∧
      get_parts (generalize s) = some st.parts ∧
      get_names s = some st.names ∧
      get_variables_re s = some st.variables_re := by
  simp only [Step.new] at h
  split at h
  · exact absurd h (by simp)
  · split at h
    · exact absurd h (by simp)
    · split at h
      · exact absurd h (by simp)
      · cases h
        refine ⟨rfl, rfl, ?_, ?_, ?_⟩ <;> simp_all

/-- Claim C4 (confirmed): every `Step` returned by successful construction
satisfies the structural invariants: the literal-parts sequence is exactly one
longer than the placeholder-names sequence, every name is a syntactically
valid identifier, and the names are pairwise distinct. -/
theorem step_structural_invariants (s : List Char) (st : Step)
    (h : Step.new s = .ok st) :
    st.parts.length = st.names.length + 1 ∧
      (∀ n ∈ st.names, is_identifier n = true) ∧ st.names.Nodup := by
  obtain ⟨-, -, hp, hn, -⟩ := step_new_ok s st h
  obtain ⟨hn1, hn2, hn3⟩ := get_names_some s st.names hn
  refine ⟨?_, hn2, hn3⟩
  rw [get_parts_some _ _ hp, split_generalize, partsOfToks_length, hn1]

/-- Witness for C4 at the template `foo{bar}baz{qux}frub`. -/
theorem step_structural_invariants_witness :
    (stepOf "foo\x7bbar\x7dbaz\x7bqux\x7dfrub".data).parts.length
        = (stepOf "foo\x7bbar\x7dbaz\x7bqux\x7dfrub".data).names.length + 1 ∧
      (∀ n ∈ (stepOf "foo\x7bbar\x7dbaz\x7bqux\x7dfrub".data).names,
        is_identifier n = true) ∧
      (stepOf "foo\x7bbar\x7dbaz\x7bqux\x7dfrub".data).names.Nodup :=
  step_structural_invariants "foo\x7bbar\x7dbaz\x7bqux\x7dfrub".data _ (by decide)

/-- Claim C9 (confirmed): for every successfully compiled template,
interleaving its literal parts with `{name}` spans built from its placeholder
names, in order, reproduces exactly the raw template string. -/
theorem step_roundtrip (s : List Char) (st : Step) (h : Step.new s = .ok st) :
    reassemble st.parts st.names = st.s := by
  obtain ⟨hs, -, hp, hn, -⟩ := step_new_ok s st h
  rw [get_parts_some _ _ hp, (get_names_some s st.names hn).1, hs,
    split_generalize, reassemble_partsOfToks, flatten_scan]

/-- Witness for C9 at the template `foo{bar}baz`. -/
theorem step_roundtrip_witness :
    reassemble (stepOf "foo\x7bbar\x7dbaz".data).parts
        (stepOf "foo\x7bbar\x7dbaz".data).names
      = (stepOf "foo\x7bbar\x7dbaz".data).s :=
  step_roundtrip "foo\x7bbar\x7dbaz".data _ (by decide)

/-- Claim C6 (confirmed): construction fails whenever two placeholders are
adjacent with no literal text between them (some interior literal part of the
split generalized text is empty); `{bar}{baz}` is rejected while `{bar}` and
`foo{bar}` are accepted. -/
theorem consecutive_placeholders_rejected :
    (∀ s : List Char,
        1 < (splitMarker (generalize s)).length →
        [] ∈ ((splitMarker (generalize s)).drop 1).dropLast →
        Step.new s = .err) ∧
      (Step.new "\x7bbar\x7d".data).isOk = true ∧
      (Step.new "foo\x7bbar\x7d".data).isOk = true ∧
      Step.new "\x7bbar\x7d\x7bbaz\x7d".data = .err := by
  refine ⟨?_, by decide, by decide, by decide⟩
  intro s h1 h2
  have hgp : get_parts (generalize s) = none := by
    simp only [get_parts]
    rw [if_pos]
    rw [Bool.and_eq_true, List.any_eq_true]
    exact ⟨by simpa using h1, [], h2, rfl⟩
  simp [Step.new, hgp]

/-- Witness for the general part of C6 at the template `{bar}{baz}`. -/
theorem consecutive_placeholders_rejected_witness :
    Step.new "\x7bbar\x7d\x7bbaz\x7d".data = .err :=
  consecutive_placeholders_rejected.1 _ (by decide) (by decide)

/-- Claim C7 (confirmed): construction fails whenever a brace character is
left over in a literal part after placeholder spans are removed; in
particular `{bar` and `bar}` are rejected. -/
theorem leftover_brace_rejected :
    (∀ s p : List Char,
        p ∈ splitMarker (generalize s) → ('\x7b' ∈ p ∨ '\x7d' ∈ p) →
        Step.new s = .err) ∧
      Step.new "\x7bbar".data = .err ∧ Step.new "bar\x7d".data = .err := by
  refine ⟨?_, by decide, by decide⟩
  intro s p hp hbrace
  have hgp : get_parts (generalize s) = none := by
    simp only [get_parts]
    split
    · rfl
    · rw [if_pos]
      rw [List.any_eq_true]
      refine ⟨p, hp, ?_⟩
      rw [Bool.or_eq_true]
      rcases hbrace with h | h
      · exact Or.inl (by simpa using h)
      · exact Or.inr (by simpa using h)
  simp [Step.new, hgp]

/-- Witness for the general part of C7 at the template `{bar`. -/
theorem leftover_brace_rejected_witness :
    Step.new "\x7bbar".data = .err :=
  leftover_brace_rejected.1 _ "\x7bbar".data (by decide) (by decide)

/-- Claim C10 (confirmed): the empty template compiles successfully, with
literal parts `[""]` and no names, and its matching operation returns
`some []` on every segment. -/
theorem empty_template_matches_everything :
    Step.new [] = .ok (stepOf []) ∧ (stepOf []).parts = [[]] ∧
      (stepOf []).names = [] ∧
      ∀ seg : List Char, (stepOf []).match_segment seg = some [] := by
  refine ⟨by decide, by decide, by decide, fun seg => ?_⟩
  have hst : stepOf [] = ⟨[], [], [[]], [], .eps⟩ := by decide
  rw [hst]
  show reSearch .eps (seg.length + 1) seg = some []
  cases seg with
  | nil => rfl
  | cons c rest => rfl

theorem matchL_eps (f : Nat) (s : List Char) : matchL f .eps s = [(s, [])] := by
  cases f <;> rfl

theorem matchL_char_nil (f : Nat) (c : Char) : matchL f (.char c) [] = [] := by
  cases f <;> rfl

theorem matchL_char_cons (f : Nat) (c d : Char) (s : List Char) :
    matchL f (.char c) (d :: s) = if d = c then [(s, [])] else [] := by
  cases f <;> rfl

theorem matchL_dot_nil (f : Nat) : matchL f .dot [] = [] := by
  cases f <;> rfl

theorem matchL_dot_cons (f : Nat) (d : Char) (s : List Char) :
    matchL f .dot (d :: s) = if d = '\n' then [] else [(s, [])] := by
  cases f <;> rfl

theorem matchL_cat (f : Nat) (a b : RE) (s : List Char) :
    matchL f (.cat a b) s =
      (matchL f a s).flatMap fun p =>
        (matchL f b p.1).map fun q => (q.1, p.2 ++ q.2) := by
  cases f <;> rfl

theorem matchL_group (f : Nat) (a : RE) (s : List Char) :
    matchL f (.group a) s =
      (matchL f a s).map fun p =>
        (p.1, s.take (s.length - p.1.length) :: p.2) := by
  cases f <;> rfl

theorem matchL_plus_zero (a : RE) (s : List Char) :
    matchL 0 (.plus a) s =
      (matchL 0 a s).flatMap fun p =>
        if p.1.length < s.length then [p] else [p] := by
  rfl

theorem matchL_plus_succ (f : Nat) (a : RE) (s : List Char) :
    matchL (f + 1) (.plus a) s =
      (matchL (f + 1) a s).flatMap fun p =>
        if p.1.length < s.length then matchL f (.plus a) p.1 ++ [p] else [p] := by
  rfl

theorem matchGo_suffix
    (next : RE → List Char → List (List Char × List (List Char)))
    (hnext : ∀ re s p, p ∈ next re s → p.1 <:+ s) :
    ∀ re s p, p ∈ matchGo next re s → p.1 <:+ s := by
  intro re
  induction re with
  | eps =>
    intro s p hp
    simp [matchGo] at hp
    simp [hp]
  | char c =>
    intro s p hp
    cases s with
    | nil => simp [matchGo] at hp
    | cons d s' =>
      simp [matchGo] at hp
      rcases hp with ⟨-, rfl⟩
      simp [List.suffix_cons _ _]
  | dot =>
    intro s p hp
    cases s with
    | nil => simp [matchGo] at hp
    | cons d s' =>
      simp [matchGo] at hp
      rcases hp with ⟨-, rfl⟩
      simp [List.suffix_cons _ _]
  | cat a b iha ihb =>
    intro s p hp
    simp only [matchGo, List.mem_flatMap, List.mem_map] at hp
    obtain ⟨q, hq, r, hr, rfl⟩ := hp
    exact (ihb _ _ hr).trans (iha _ _ hq)
  | group a iha =>
    intro s p hp
    simp only [matchGo, List.mem_map] at hp
    obtain ⟨q, hq, rfl⟩ := hp
    exact iha _ q hq
  | plus a iha =>
    intro s p hp
    simp only [matchGo, List.mem_flatMap] at hp
    obtain ⟨q, hq, hmem⟩ := hp
    by_cases hlt : q.1.length < s.length
    · rw [if_pos hlt] at hmem
      rcases List.mem_append.1 hmem with h | h
      · exact (hnext _ _ _ h).trans (iha _ _ hq)
      · simp at h
        subst h
        exact iha _ _ hq
    · rw [if_neg hlt] at hmem
      simp at hmem
      subst hmem
      exact iha _ _ hq

theorem matchL_suffix (f : Nat) (re : RE) (s : List Char)
    (p : List Char × List (List Char)) (hp : p ∈ matchL f re s) : p.1 <:+ s := by
  induction f generalizing re s p with
  | zero => exact matchGo_suffix _ (by intro re s p hp; simp at hp) re s p hp
  | succ f ih => exact matchGo_suffix _ (fun re s p hp => ih re s p hp) re s p hp

theorem matchL_plusDot (f : Nat) (s : List Char)
    (p : List Char × List (List Char)) (hp : p ∈ matchL f (.plus .dot) s) :
    p.1.length < s.length ∧ p.2 = [] := by
  induction f generalizing s p with
  | zero =>
    rw [matchL_plus_zero] at hp
    simp only [List.mem_flatMap] at hp
    obtain ⟨q, hq, hmem⟩ := hp
    have hpq : p = q := by
      by_cases hlt : q.1.length < s.length
      · rw [if_pos hlt] at hmem; simpa using hmem
      · rw [if_neg hlt] at hmem; simpa using hmem
    subst hpq
    cases s with
    | nil => rw [matchL_dot_nil] at hq; simp at hq
    | cons d s' =>
      rw [matchL_dot_cons] at hq
      by_cases hd : d = '\n'
      · rw [if_pos hd] at hq; simp at hq
      · rw [if_neg hd] at hq
        simp at hq
        simp [hq]
  | succ f ih =>
    rw [matchL_plus_succ] at hp
    simp only [List.mem_flatMap] at hp
    obtain ⟨q, hq, hmem⟩ := hp
    have hq' : q.1.length < s.length ∧ q.2 = [] := by
      cases s with
      | nil => rw [matchL_dot_nil] at hq; simp at hq
      | cons d s' =>
        rw [matchL_dot_cons] at hq
        by_cases hd : d = '\n'
        · rw [if_pos hd] at hq; simp at hq
        · rw [if_neg hd] at hq
          simp at hq
          simp [hq]
    rw [if_pos hq'.1] at hmem
    rcases List.mem_append.1 hmem with h | h
    · have := ih q.1 p h
      exact ⟨this.1.trans hq'.1, this.2⟩
    · simp at h
      subst h
      exact hq'

theorem matchL_weave (f : Nat) (ts : List Tok) :
    ∀ (s : List Char) (p : List Char × List (List Char)),
      p ∈ matchL f (seqOf (ts.map tokRE)) s →
      p.2.length = (phBodies ts).length ∧ (∀ c ∈ p.2, c ≠ []) ∧
        s = weaveToks ts p.2 ++ p.1 := by
  induction ts with
  | nil =>
    intro s p hp
    rw [show seqOf (List.map tokRE []) = .eps from rfl, matchL_eps] at hp
    simp at hp
    subst hp
    simp [phBodies_nil, weaveToks]
  | cons t ts ih =>
    intro s p hp
    match t with
    | .lit c =>
      rw [show seqOf (List.map tokRE (.lit c :: ts))
        = .cat (.char c) (seqOf (ts.map tokRE)) from rfl, matchL_cat] at hp
      simp only [List.mem_flatMap, List.mem_map] at hp
      obtain ⟨q, hq, r, hr, rfl⟩ := hp
      cases s with
      | nil => rw [matchL_char_nil] at hq; simp at hq
      | cons d s' =>
        rw [matchL_char_cons] at hq
        by_cases hd : d = c
        · rw [if_pos hd] at hq
          simp at hq
          subst hq
          obtain ⟨h1, h2, h3⟩ := ih s' r hr
          subst hd
          refine ⟨by simpa [phBodies_cons_lit] using h1, by simpa using h2, ?_⟩
          simp only [weaveToks, List.nil_append, List.cons_append]
          rw [← h3]
        · rw [if_neg hd] at hq
          simp at hq
    | .ph b =>
      rw [show seqOf (List.map tokRE (.ph b :: ts))
        = .cat (.group (seqOf [.plus .dot])) (seqOf (ts.map tokRE)) from rfl,
        matchL_cat] at hp
      simp only [List.mem_flatMap, List.mem_map] at hp
      obtain ⟨q, hq, r, hr, rfl⟩ := hp
      rw [matchL_group] at hq
      simp only [List.mem_map] at hq
      obtain ⟨q', hq', rfl⟩ := hq
      rw [show seqOf [RE.plus .dot] = .cat (.plus .dot) .eps from rfl,
        matchL_cat] at hq'
      simp only [List.mem_flatMap, List.mem_map] at hq'
      obtain ⟨q1, hq1, q2, hq2, rfl⟩ := hq'
      rw [matchL_eps] at hq2
      simp at hq2
      subst hq2
      obtain ⟨hlen, hcap⟩ := matchL_plusDot f s q1 hq1
      obtain ⟨pre, hpre⟩ := matchL_suffix f _ s q1 hq1
      have hpl : s.length - q1.1.length = pre.length := by
        rw [← hpre]
        simp
      have hcapeq : s.take (s.length - q1.1.length) = pre := by
        rw [hpl, ← hpre, List.take_left]
      have hprene : pre ≠ [] := by
        intro hz
        subst hz
        simp at hpre
        rw [← hpre] at hlen
        simp at hlen
      obtain ⟨h1, h2, h3⟩ := ih q1.1 r hr
      refine ⟨?_, ?_, ?_⟩
      · simp [hcap, phBodies_cons_ph, h1]
      · intro cc hcc
        simp [hcap, hcapeq] at hcc
        rcases hcc with hcc | hcc
        · subst hcc
          exact hprene
        · exact h2 cc hcc
      · show s = weaveToks (.ph b :: ts)
          ((s.take (s.length - q1.1.length) :: (q1.2 ++ [])) ++ r.2) ++ r.1
        rw [hcap, hcapeq]
        show s = pre ++ weaveToks ts r.2 ++ r.1
        rw [← hpre, h3]
        simp

theorem lexPat_safe_cons (c : Char) (rest : List Char) (h : safeChar c = true) :
    lexPat none (c :: rest) = (lexPat none rest).map (.ch c :: ·) := by
  have hm : metaChar c = false := by
    simpa [safeChar] using h
  have hne : c ∉ ['(', ')', '.', '+', '|', '*', '?', '[', ']', '\x7b', '\x7d',
      '\\', '^', '$'] := by
    intro hc
    rw [show metaChar c = true by simpa [metaChar] using hc] at hm
    simp at hm
  simp only [List.mem_cons, List.mem_singleton] at hne
  push_neg at hne
  rw [lexPat.eq_def]
  split <;> simp_all

theorem lexPat_gtName (acc : List Char) (rest : List Char) :
    lexPat (some acc) ('>' :: rest) =
      if validGroupName acc then (lexPat none rest).map (.openNamed acc :: ·)
      else none := by
  rfl

theorem lexPat_accName (acc : List Char) (c : Char) (rest : List Char)
    (h : c ≠ '>') :
    lexPat (some acc) (c :: rest) = lexPat (some (acc ++ [c])) rest := by
  rw [lexPat.eq_def]
  split <;> simp_all

theorem isWordChar_ne_gt (c : Char) (h : isWordChar c = true) : c ≠ '>' := by
  intro hc
  subst hc
  exact absurd h (by decide)

theorem lexPat_name (b : List Char) (hb : ∀ c ∈ b, isWordChar c = true) :
    ∀ acc rest : List Char,
      lexPat (some acc) (b ++ '>' :: rest) =
        if validGroupName (acc ++ b) then
          (lexPat none rest).map (.openNamed (acc ++ b) :: ·)
        else none := by
  induction b with
  | nil =>
    intro acc rest
    simpa using lexPat_gtName acc rest
  | cons c b ih =>
    intro acc rest
    have hc : c ≠ '>' := isWordChar_ne_gt c (hb c (by simp))
    rw [List.cons_append, lexPat_accName _ _ _ hc,
      ih (fun d hd => hb d (by simp [hd])) (acc ++ [c]) rest]
    simp

theorem is_identifier_wordChars (b : List Char) (hb : is_identifier b = true) :
    ∀ c ∈ b, isWordChar c = true := by
  cases b with
  | nil => simp [is_identifier] at hb
  | cons c bs =>
    simp only [is_identifier, Bool.and_eq_true, List.all_eq_true] at hb
    intro d hd
    rcases List.mem_cons.1 hd with h | h
    · subst h
      exact hb.1.1
    · exact hb.2 d h

theorem lexPat_ph (b rest : List Char) (hb : is_identifier b = true) :
    lexPat none (tokPatText (.ph b) ++ rest) =
      (lexPat none rest).map
        (fun l => .openNamed b :: .dotTok :: .plusTok :: .closeGroup :: l) := by
  show lexPat (some []) ((b ++ ('>' :: '.' :: '+' :: [')'])) ++ rest) = _
  rw [List.append_assoc]
  simp only [List.cons_append, List.singleton_append, List.nil_append]
  rw [lexPat_name b (is_identifier_wordChars b hb) [] ('.' :: '+' :: ')' :: rest)]
  rw [if_pos (by simpa [validGroupName] using hb)]
  rw [show lexPat none ('.' :: '+' :: ')' :: rest)
    = (((lexPat none rest).map (.closeGroup :: ·)).map (.plusTok :: ·)).map
        (.dotTok :: ·) from rfl]
  cases lexPat none rest <;> simp

theorem lex_toks (ts : List Tok)
    (hlit : ∀ c : Char, .lit c ∈ ts → safeChar c = true)
    (hph : ∀ b : List Char, .ph b ∈ ts → is_identifier b = true) :
    lexPat none (ts.flatMap tokPatText) = some (ts.flatMap tokPToks) := by
  induction ts with
  | nil => rfl
  | cons t ts ih =>
    have ih' := ih (fun c hc => hlit c (List.mem_cons_of_mem _ hc))
      (fun b hb => hph b (List.mem_cons_of_mem _ hb))
    match t with
    | .lit c =>
      rw [List.flatMap_cons, show tokPatText (.lit c) = [c] from rfl,
        List.singleton_append,
        lexPat_safe_cons c _ (hlit c (List.mem_cons_self _ _)), ih']
      rfl
    | .ph b =>
      rw [List.flatMap_cons, lexPat_ph _ _ (hph b (List.mem_cons_self _ _)), ih']
      rfl

theorem parseSt_toks (ts : List Tok) :
    ∀ (frame : List RE) (stack : List (List RE)) (rest : List PTok),
      parseSt (frame :: stack) (ts.flatMap tokPToks ++ rest) =
        parseSt (((ts.map tokRE).reverse ++ frame) :: stack) rest := by
  induction ts with
  | nil => intro frame stack rest; simp
  | cons t ts ih =>
    intro frame stack rest
    match t with
    | .lit c =>
      rw [List.flatMap_cons, show tokPToks (.lit c) = [.ch c] from rfl]
      simp only [List.cons_append, List.singleton_append, List.append_assoc,
        List.nil_append]
      rw [show parseSt (frame :: stack)
          (PTok.ch c :: (ts.flatMap tokPToks ++ rest))
        = parseSt ((.char c :: frame) :: stack) (ts.flatMap tokPToks ++ rest)
        from rfl, ih (.char c :: frame) stack rest]
      simp [tokRE]
    | .ph b =>
      rw [List.flatMap_cons,
        show tokPToks (.ph b)
          = [.openNamed b, .dotTok, .plusTok, .closeGroup] from rfl]
      simp only [List.cons_append, List.singleton_append, List.append_assoc,
        List.nil_append]
      rw [show parseSt (frame :: stack)
          (PTok.openNamed b :: .dotTok :: .plusTok :: .closeGroup
            :: (ts.flatMap tokPToks ++ rest))
        = parseSt ((.group (seqOf [.plus .dot]) :: frame) :: stack)
            (ts.flatMap tokPToks ++ rest) from rfl,
        ih (.group (seqOf [.plus .dot]) :: frame) stack rest]
      simp [tokRE]

theorem rustRegexNew_toks (ts : List Tok)
    (hlit : ∀ c : Char, .lit c ∈ ts → safeChar c = true)
    (hph : ∀ b : List Char, .ph b ∈ ts → is_identifier b = true) :
    rustRegexNew (ts.flatMap tokPatText) = some (seqOf (ts.map tokRE)) := by
  rw [rustRegexNew, lex_toks ts hlit hph]
  show parseSt [[]] (ts.flatMap tokPToks) = _
  rw [show ts.flatMap tokPToks = ts.flatMap tokPToks ++ [] from
      (List.append_nil _).symm,
    parseSt_toks ts [] [] [], List.append_nil,
    show ∀ R : List RE, parseSt [R] [] = some (seqOf R.reverse) from
      fun R => rfl,
    List.reverse_reverse]

theorem head?_mem {α : Type} (l : List α) (a : α) (h : l.head? = some a) :
    a ∈ l := by
  cases l <;> simp_all

theorem reSearch_sound (re : RE) (f : Nat) (s : List Char)
    (caps : List (List Char)) (h : reSearch re f s = some caps) :
    ∃ t, t <:+ s ∧ ∃ p ∈ matchL f re t, p.2 = caps := by
  induction s with
  | nil =>
    rw [show reSearch re f [] = ((matchL f re []).head?).map (fun p => p.2)
      from rfl] at h
    cases hh : (matchL f re []).head? with
    | none => rw [hh] at h; simp at h
    | some p =>
      rw [hh] at h
      simp at h
      exact ⟨[], List.suffix_refl _, p, head?_mem _ _ hh, h⟩
  | cons c rest ih =>
    rw [show reSearch re f (c :: rest)
      = (match (matchL f re (c :: rest)).head? with
         | some p => some p.2
         | none => reSearch re f rest) from rfl] at h
    cases hh : (matchL f re (c :: rest)).head? with
    | some p =>
      rw [hh] at h
      simp at h
      exact ⟨c :: rest, List.suffix_refl _, p, head?_mem _ _ hh, h⟩
    | none =>
      rw [hh] at h
      simp only [] at h
      obtain ⟨t, ht, hp⟩ := ih h
      exact ⟨t, ht.trans (List.suffix_cons c rest), hp⟩

theorem reSearch_isSome (re : RE) (f : Nat) (s : List Char) :
    (reSearch re f s).isSome = true ↔ ∃ t, t <:+ s ∧ matchL f re t ≠ [] := by
  induction s with
  | nil =>
    rw [show reSearch re f [] = ((matchL f re []).head?).map (fun p => p.2)
      from rfl]
    constructor
    · intro h
      refine ⟨[], List.suffix_refl _, ?_⟩
      intro hz
      rw [hz] at h
      simp at h
    · rintro ⟨t, ht, hne⟩
      have ht0 : t = [] := List.suffix_nil.1 ht
      subst ht0
      cases hl : matchL f re [] with
      | nil => exact absurd hl hne
      | cons p ps => simp [hl]
  | cons c rest ih =>
    rw [show reSearch re f (c :: rest)
      = (match (matchL f re (c :: rest)).head? with
         | some p => some p.2
         | none => reSearch re f rest) from rfl]
    cases hh : (matchL f re (c :: rest)).head? with
    | some p =>
      constructor
      · intro _
        refine ⟨c :: rest, List.suffix_refl _, ?_⟩
        intro hz
        rw [hz] at hh
        simp at hh
      · intro _
        rfl
    | none =>
      have hemp : matchL f re (c :: rest) = [] := by
        cases hl : matchL f re (c :: rest) with
        | nil => rfl
        | cons q qs => rw [hl] at hh; simp at hh
      simp only []
      constructor
      · intro h
        obtain ⟨t, ht, hne⟩ := ih.1 h
        exact ⟨t, ht.trans (List.suffix_cons c rest), hne⟩
      · rintro ⟨t, ht, hne⟩
        rcases List.suffix_cons_iff.1 ht with h | h
        · subst h
          exact absurd hemp hne
        · exact ih.2 ⟨t, h, hne⟩

theorem matchL_chars (f : Nat) (l : List Char) :
    ∀ s : List Char, matchL f (seqOf (l.map .char)) s =
      if l <+: s then [(s.drop l.length, [])] else [] := by
  induction l with
  | nil =>
    intro s
    rw [show seqOf (List.map RE.char []) = .eps from rfl, matchL_eps]
    simp
  | cons c l ih =>
    intro s
    rw [show seqOf (List.map RE.char (c :: l))
      = .cat (.char c) (seqOf (l.map .char)) from rfl, matchL_cat]
    cases s with
    | nil =>
      rw [matchL_char_nil]
      simp
    | cons d s' =>
      rw [matchL_char_cons]
      by_cases hd : d = c
      · subst hd
        rw [if_pos rfl]
        simp only [List.flatMap_cons, List.flatMap_nil, List.append_nil]
        rw [ih s']
        by_cases hp : l <+: s'
        · rw [if_pos hp, if_pos (List.cons_prefix_cons.2 ⟨rfl, hp⟩)]
          simp
        · rw [if_neg hp, if_neg ?_]
          · simp
          · intro hc
            exact hp (List.cons_prefix_cons.1 hc).2
      · rw [if_neg hd]
        rw [if_neg ?_]
        · simp
        · intro hc
          exact hd ((List.cons_prefix_cons.1 hc).1).symm

theorem weaveParts_consHead (c : Char) (P N : List (List Char)) (h : P ≠ []) :
    weaveParts (consHead c P) N = c :: weaveParts P N := by
  match P, N with
  | [], _ => exact absurd rfl h
  | p :: ps, [] => rfl
  | p :: ps, n :: ns => simp [consHead, weaveParts]

theorem weaveToks_eq_weaveParts (ts : List Tok) :
    ∀ caps : List (List Char), caps.length = (phBodies ts).length →
      weaveToks ts caps = weaveParts (partsOfToks ts) caps := by
  induction ts with
  | nil =>
    intro caps hc
    rw [phBodies_nil] at hc
    rw [List.length_nil, List.length_eq_zero] at hc
    subst hc
    rfl
  | cons t ts ih =>
    intro caps hc
    match t with
    | .lit c =>
      rw [phBodies_cons_lit] at hc
      rw [show weaveToks (.lit c :: ts) caps = c :: weaveToks ts caps from rfl,
        show partsOfToks (.lit c :: ts) = consHead c (partsOfToks ts) from rfl,
        weaveParts_consHead c _ _ (partsOfToks_ne_nil ts), ih caps hc]
    | .ph b =>
      rw [phBodies_cons_ph] at hc
      match caps with
      | [] => simp at hc
      | cap :: caps =>
        simp only [List.length_cons, Nat.add_right_cancel_iff] at hc
        rw [show weaveToks (.ph b :: ts) (cap :: caps)
            = cap ++ weaveToks ts caps from rfl,
          show partsOfToks (.ph b :: ts) = [] :: partsOfToks ts from rfl,
          show weaveParts ([] :: partsOfToks ts) (cap :: caps)
            = [] ++ cap ++ weaveParts (partsOfToks ts) caps from rfl,
          ih caps hc]
        simp

theorem lit_mem_partsOfToks (ts : List Tok) (c : Char) (h : .lit c ∈ ts) :
    ∃ p ∈ partsOfToks ts, c ∈ p := by
  induction ts with
  | nil => simp at h
  | cons t ts ih =>
    rcases List.mem_cons.1 h with h1 | h1
    · subst h1
      match hp : partsOfToks ts with
      | [] => exact absurd hp (partsOfToks_ne_nil ts)
      | p :: ps =>
        refine ⟨c :: p, ?_, by simp⟩
        rw [show partsOfToks (.lit c :: ts) = consHead c (partsOfToks ts)
          from rfl, hp]
        simp [consHead]
    · obtain ⟨p, hp, hc⟩ := ih h1
      match t with
      | .ph b =>
        refine ⟨p, ?_, hc⟩
        rw [show partsOfToks (.ph b :: ts) = [] :: partsOfToks ts from rfl]
        exact List.mem_cons_of_mem _ hp
      | .lit d =>
        match hq : partsOfToks ts with
        | [] => exact absurd hq (partsOfToks_ne_nil ts)
        | q :: qs =>
          rw [hq] at hp
          rcases List.mem_cons.1 hp with he | he
          · subst he
            refine ⟨d :: p, ?_, List.mem_cons_of_mem _ hc⟩
            rw [show partsOfToks (.lit d :: ts) = consHead d (partsOfToks ts)
              from rfl, hq]
            simp [consHead]
          · refine ⟨p, ?_, hc⟩
            rw [show partsOfToks (.lit d :: ts) = consHead d (partsOfToks ts)
              from rfl, hq]
            exact List.mem_cons_of_mem _ he

theorem ph_mem_phBodies (ts : List Tok) (b : List Char) (h : .ph b ∈ ts) :
    b ∈ phBodies ts := by
  rw [phBodies, List.mem_filterMap]
  exact ⟨.ph b, h, rfl⟩

theorem scan_no_open (s : List Char) (h : '\x7b' ∉ s) : scan s = s.map .lit := by
  induction s with
  | nil => rfl
  | cons c rest ih =>
    have hc : c ≠ '\x7b' := fun hc => h (by simp [hc])
    rw [scan, scanAux_none_cons c rest hc, List.map_cons]
    rw [show scanAux none rest = scan rest from rfl,
      ih fun hm => h (List.mem_cons_of_mem _ hm)]

/-- Claim C8 counterexample: the template `(a)b` (whose literal part contains
parentheses) compiles, has no placeholder names, and yet matching the segment
`ab` succeeds and returns one captured entry — the returned sequence does not
have one entry per placeholder name. -/
theorem capture_count_cex :
    newThenMatch "(a)b".data "ab".data = some (some [['a']]) ∧
      (stepOf "(a)b".data).names = [] := by
  refine ⟨by decide, by decide⟩

/-- Claim C8 (amended): for templates whose literal parts contain no pattern
metacharacters, a successful match returns exactly one captured text per
placeholder name, in declaration order — the segment contains the literal
parts interleaved, in order, with the captures — and every captured text is
nonempty; in particular the `start{a}middle{b}end` example behaves as
claimed. -/
theorem capture_alignment :
    (∀ (s seg : List Char) (st : Step) (caps : List (List Char)),
        Step.new s = .ok st →
        (∀ p ∈ st.parts, ∀ c ∈ p, safeChar c = true) →
        st.match_segment seg = some caps →
        caps.length = st.names.length ∧ (∀ c ∈ caps, c ≠ []) ∧
          ∃ pre post, seg = pre ++ weaveParts st.parts caps ++ post) ∧
      newThenMatch "start\x7ba\x7dmiddle\x7bb\x7dend".data
          "startAmiddleBend".data
        = some (some [['A'], ['B']]) := by
  refine ⟨?_, by decide⟩
  intro s seg st caps hnew hsafe hm
  obtain ⟨-, -, hp, hn, hre⟩ := step_new_ok s st hnew
  obtain ⟨hn1, hn2, -⟩ := get_names_some s st.names hn
  have hparts : st.parts = partsOfToks (scan s) := by
    rw [get_parts_some _ _ hp, split_generalize]
  have hlit : ∀ c : Char, .lit c ∈ scan s → safeChar c = true := by
    intro c hc
    obtain ⟨p, hp', hcp⟩ := lit_mem_partsOfToks _ c hc
    exact hsafe p (by rw [hparts]; exact hp') c hcp
  have hph : ∀ b : List Char, .ph b ∈ scan s → is_identifier b = true := by
    intro b hb
    refine hn2 b ?_
    rw [hn1]
    exact ph_mem_phBodies _ b hb
  have hre2 : st.variables_re = seqOf ((scan s).map tokRE) := by
    have h0 := rustRegexNew_toks (scan s) hlit hph
    rw [show get_variables_re s = rustRegexNew ((scan s).flatMap tokPatText)
      from rfl, h0] at hre
    exact (Option.some_inj.1 hre).symm
  rw [show st.match_segment seg
    = reSearch st.variables_re (seg.length + 1) seg from rfl, hre2] at hm
  obtain ⟨t, ht, p, hpmem, hpc⟩ := reSearch_sound _ _ _ _ hm
  obtain ⟨h1, h2, h3⟩ := matchL_weave _ _ _ _ hpmem
  obtain ⟨pre0, hpre0⟩ := ht
  subst hpc
  refine ⟨by rw [hn1]; exact h1, h2, pre0, p.1, ?_⟩
  rw [← hpre0, h3, hparts, weaveToks_eq_weaveParts _ _ h1]
  simp

/-- Witness for the general part of C8 at `start{a}middle{b}end` matched
against `startAmiddleBend`. -/
theorem capture_alignment_witness :
    [['A'], ['B']].length
        = (stepOf "start\x7ba\x7dmiddle\x7bb\x7dend".data).names.length ∧
      (∀ c ∈ [['A'], ['B']], c ≠ []) ∧
      ∃ pre post, "startAmiddleBend".data
        = pre ++ weaveParts (stepOf "start\x7ba\x7dmiddle\x7bb\x7dend".data).parts
            [['A'], ['B']] ++ post :=
  capture_alignment.1 "start\x7ba\x7dmiddle\x7bb\x7dend".data
    "startAmiddleBend".data (stepOf "start\x7ba\x7dmiddle\x7bb\x7dend".data)
    [['A'], ['B']] (by decide) (by decide) (by decide)

/-- Claim C1 counterexample: the no-placeholder template `foo` also matches
the segment `xfoo`, which differs from the raw template string, so a match
need not account for the whole segment nor start at its beginning. -/
theorem whole_segment_match_cex :
    newThenMatch "foo".data "xfoo".data = some (some []) ∧
      "xfoo".data ≠ "foo".data := by
  refine ⟨by decide, by decide⟩

theorem map_tokRE_lit (s : List Char) :
    List.map tokRE (s.map Tok.lit) = s.map RE.char := by
  induction s <;> simp_all [tokRE]

/-- Claim C1 (amended): matching is an unanchored leftmost substring search:
for a metacharacter-free template with no placeholders, matching a segment
succeeds exactly when the raw template text occurs as a contiguous substring
of the segment — the match need not start at the beginning of the input even
though the first literal part is nonempty. -/
theorem match_is_substring_search (s seg : List Char) (st : Step)
    (hsafe : ∀ c ∈ s, safeChar c = true) (hnew : Step.new s = .ok st) :
    (st.match_segment seg).isSome = true ↔ s <:+: seg := by
  have hopen : '\x7b' ∉ s := by
    intro hm
    exact absurd (hsafe _ hm) (by decide)
  have hscan : scan s = s.map .lit := scan_no_open s hopen
  obtain ⟨-, -, -, -, hre⟩ := step_new_ok s st hnew
  have hlit : ∀ c : Char, .lit c ∈ scan s → safeChar c = true := by
    intro c hc
    rw [hscan] at hc
    simp at hc
    exact hsafe c hc
  have hph : ∀ b : List Char, .ph b ∈ scan s → is_identifier b = true := by
    intro b hb
    rw [hscan] at hb
    simp at hb
  have hre2 : st.variables_re = seqOf (s.map .char) := by
    have h0 := rustRegexNew_toks (scan s) hlit hph
    rw [show get_variables_re s = rustRegexNew ((scan s).flatMap tokPatText)
      from rfl, h0] at hre
    have h1 := (Option.some_inj.1 hre).symm
    rw [h1, hscan, map_tokRE_lit]
  rw [show st.match_segment seg
    = reSearch st.variables_re (seg.length + 1) seg from rfl, hre2,
    reSearch_isSome]
  constructor
  · rintro ⟨t, ht, hne⟩
    rw [matchL_chars] at hne
    by_cases hpre : s <+: t
    · exact List.infix_iff_prefix_suffix.2 ⟨t, hpre, ht⟩
    · rw [if_neg hpre] at hne
      exact absurd rfl hne
  · intro hinf
    obtain ⟨t, hpre, ht⟩ := List.infix_iff_prefix_suffix.1 hinf
    refine ⟨t, ht, ?_⟩
    rw [matchL_chars, if_pos hpre]
    simp

/-- Witness for C1's amended statement at the template `foo` and the segment
`xfoo`. -/
theorem match_is_substring_search_witness :
    ((stepOf "foo".data).match_segment "xfoo".data).isSome = true ↔
      "foo".data <:+: "xfoo".data :=
  match_is_substring_search "foo".data "xfoo".data (stepOf "foo".data)
    (by decide) (by decide)

/-- Claim C2 counterexample: literal parts are not escaped, so the template
`a.c` does match the segment `abc` (the `.` is interpreted as pattern
syntax). -/
theorem literal_escaping_cex :
    newThenMatch "a.c".data "abc".data = some (some []) := by decide

/-- Claim C2 (amended): pattern metacharacters in literal parts are not
escaped and keep their pattern meaning: `a.c` matches `axc` but not `ac`
(`.` matches exactly one arbitrary character), while a template of
metacharacter-free text such as `a,c` is matched character-for-character
(it rejects `abc` and matches `a,c`). -/
theorem metachar_literal_behavior :
    newThenMatch "a.c".data "axc".data = some (some []) ∧
      newThenMatch "a.c".data "ac".data = some none ∧
      newThenMatch "a,c".data "abc".data = some none ∧
      newThenMatch "a,c".data "a,c".data = some (some []) := by
  refine ⟨by decide, by decide, by decide, by decide⟩

/-- Claim C3: the input `(foo` passes both validation steps of construction
(`get_parts` and `get_names` succeed), yet construction panics in the
`unwrap` of `get_variables_re`, because the unescaped literal text is not a
valid pattern — construction does not return a `Result` on this input. -/
theorem construction_panics_on_lparen :
    get_parts (generalize "(foo".data) = some ["(foo".data] ∧
      get_names "(foo".data = some [] ∧
      Step.new "(foo".data = .panic := by
  refine ⟨by decide, by decide, by decide⟩

/-- Claim C5: the brace-free input `)bar` (no placeholder syntax at all)
does not compile to a template with literal parts `[")bar"]` — construction
panics in the `unwrap` of `get_variables_re` instead of returning `Ok`. -/
theorem construction_panics_on_rparen :
    '\x7b' ∉ ")bar".data ∧ '\x7d' ∉ ")bar".data ∧
      Step.new ")bar".data = .panic := by
  refine ⟨by decide, by decide, by decide⟩
